import Mathlib

/-!
Verification of the indexing and retrieval core of a small full-text
search engine (files `indexer.py` and `query_engine.py`).

Strings are modelled as `List Char` (Python `str` is a sequence of
characters); documents and queries in the claims are ASCII, so the
ASCII fragments of Python's `str.lower`, `\w`, `\s` and `[a-z0-9]`
are embedded.  Python `dict`s are modelled as insertion-ordered
association lists: assignment to an existing key updates it in place,
assignment to a fresh key appends at the end, exactly as CPython
preserves insertion order.  Python `float`s are modelled as real
numbers (`math.log` becomes `Real.log`); no claim below depends on
floating-point rounding.  Code that can raise (`IndexError` in the
boolean query parser) returns `Option`.
-/

namespace SearchEngine

/-! ### Character classes and Python string helpers -/

/-- ASCII case folding: the fragment of Python `str.lower()` used by the
corpus and queries (non-ASCII letters pass through unchanged). -/
def pyLowerChar (c : Char) : Char :=
  if 'A' ≤ c ∧ c ≤ 'Z' then Char.ofNat (c.toNat + 32) else c

/-- A character matched by the regex class `[a-z0-9]` (applied after
lowercasing in `tokenize`). -/
def isAlnumLower (c : Char) : Bool :=
  ('a' ≤ c && c ≤ 'z') || ('0' ≤ c && c ≤ '9')

/-- A character of the regex class `\w` (ASCII fragment): letters, digits
and underscore.  Used for the `\b` word boundaries in snippet
highlighting and in boolean-operator detection. -/
def isWordChar (c : Char) : Bool :=
  ('a' ≤ c && c ≤ 'z') || ('A' ≤ c && c ≤ 'Z') || ('0' ≤ c && c ≤ '9') || c = '_'

/-- Whitespace as recognised by Python `str.split()` / `str.strip()`
(ASCII fragment). -/
def isPySpace (c : Char) : Bool :=
  c = ' ' || c = '\t' || c = '\n' || c = '\r' || c = '\x0b' || c = '\x0c'

/-- Maximal runs of characters satisfying `p`; everything else separates.
`runsOfP isAlnumLower` embeds `re.findall(r"[a-z0-9]+", text)` and
`runsOfP (fun c => !isPySpace c)` embeds `str.split()`. -/
def runsAux (p : Char → Bool) : List Char → List Char → List (List Char)
  | [], acc => if acc = [] then [] else [acc.reverse]
  | c :: cs, acc =>
    if p c then runsAux p cs (c :: acc)
    else if acc = [] then runsAux p cs [] else acc.reverse :: runsAux p cs []

def runsOfP (p : Char → Bool) (l : List Char) : List (List Char) :=
  runsAux p l []

/-- `re.findall(r"[a-z0-9]+", s)`. -/
def alnumRuns (l : List Char) : List (List Char) := runsOfP isAlnumLower l

/-- Python `s.split()` (split on whitespace runs, no empty fields). -/
def pySplit (l : List Char) : List (List Char) := runsOfP (fun c => !isPySpace c) l

/-- Python `s.strip()`. -/
def pyStrip (l : List Char) : List Char :=
  ((l.dropWhile isPySpace).reverse.dropWhile isPySpace).reverse

/-- Python `word[:-n]` for `n ≤ len(word)` (also the helper used to strip
a suffix of length `n`). -/
def dropRightL (w : List Char) (n : Nat) : List Char := w.take (w.length - n)

/-- Python `word.endswith(suffix)` (true also when the word equals the
suffix, as in the source's direct `str.endswith` calls). -/
def endsWith (w s : List Char) : Bool :=
  decide (s.length ≤ w.length) && decide (w.drop (w.length - s.length) = s)

/-- Python `str(n)` on the non-negative document ids. -/
def pyStr (n : Nat) : String := toString n

/-! ### Association lists as insertion-ordered Python dicts -/

/-- `d[k] = v`: update in place if `k` is a key, else append at the end
(CPython dicts preserve insertion order). -/
def dictInsert {K V : Type} [DecidableEq K] (k : K) (v : V) :
    List (K × V) → List (K × V)
  | [] => [(k, v)]
  | (k', v') :: rest =>
    if k' = k then (k, v) :: rest else (k', v') :: dictInsert k v rest

/-- `d.get(k)` / `k in d` lookup. -/
def alookup {K V : Type} [DecidableEq K] (k : K) : List (K × V) → Option V
  | [] => none
  | (k', v) :: rest => if k' = k then some v else alookup k rest

/-! ### Stopwords (`STOPWORDS` in `indexer.py`, verbatim, duplicates kept) -/

def STOPWORDS : List String :=
  ["a", "about", "above", "after", "again", "against", "all", "am", "an",
   "and", "any", "are", "aren't", "as", "at", "be", "because", "been",
   "before", "being", "below", "between", "both", "but", "by", "can",
   "can't", "cannot", "could", "couldn't", "d", "did", "didn't", "do",
   "does", "doesn't", "doing", "don", "don't", "down", "during", "each",
   "few", "for", "from", "further", "had", "hadn't", "has", "hasn't",
   "have", "haven't", "having", "he", "her", "here", "hers", "herself",
   "him", "himself", "his", "how", "i", "if", "in", "into", "is", "isn't",
   "it", "it's", "its", "itself", "just", "ll", "m", "ma", "me", "mightn",
   "mightn't", "more", "most", "mustn", "mustn't", "my", "myself", "needn",
   "needn't", "no", "nor", "not", "now", "o", "of", "off", "on", "once",
   "only", "or", "other", "our", "ours", "ourselves", "out", "over", "own",
   "re", "s", "same", "shan", "shan't", "she", "she's", "should",
   "should've", "shouldn", "shouldn't", "so", "some", "such", "t", "than",
   "that", "that'll", "the", "their", "theirs", "them", "themselves",
   "then", "there", "these", "they", "this", "those", "through", "to",
   "too", "under", "until", "up", "ve", "very", "was", "wasn", "wasn't",
   "we", "were", "weren", "weren't", "what", "when", "where", "which",
   "while", "who", "whom", "why", "will", "with", "won", "won't",
   "wouldn", "wouldn't", "y", "you", "you'd", "you'll", "you're",
   "you've", "your", "yours", "yourself", "yourselves",
   "also", "one", "two", "new", "like", "many", "may", "would", "could",
   "use", "using", "used", "much", "well", "even", "still", "known",
   "often", "however", "though", "another", "every", "since", "first",
   "last", "around", "between", "between", "called", "often", "used",
   "based", "became", "according", "although", "including", "several",
   "various", "being", "been", "within"]

def isStopword (t : List Char) : Bool :=
  STOPWORDS.any (fun s => s.data = t)

/-! ### Simplified Porter stemmer (`stem` in `indexer.py`) -/

def isVowel (c : Char) : Bool :=
  c = 'a' || c = 'e' || c = 'i' || c = 'o' || c = 'u' || c = 'y'

/-- `_measure`: the number of vowel→consonant transitions. -/
def measureAux : Bool → List Char → Nat
  | _, [] => 0
  | prevV, c :: cs =>
    (if prevV && !(isVowel c) then 1 else 0) + measureAux (isVowel c) cs

def measure (w : List Char) : Nat := measureAux false w

/-- `_has_vowel`. -/
def hasVowel (w : List Char) : Bool := w.any isVowel

/-- Step 1: plurals (`sses`/`ies`/`ss`/`s`). -/
def stemStep1 (w : List Char) : List Char :=
  if endsWith w "sses".data then dropRightL w 2
  else if endsWith w "ies".data then dropRightL w 2
  else if endsWith w "ss".data then w
  else if endsWith w "s".data && !(endsWith w "us".data) && !(endsWith w "ss".data)
    then dropRightL w 1
  else w

/-- The post-fix shared by the `-ed` and `-ing` branches of step 2. -/
def edIngFix (w : List Char) : List Char :=
  if endsWith w "at".data || endsWith w "bl".data || endsWith w "iz".data then
    w ++ ['e']
  else
    match w.reverse with
    | a :: b :: _ =>
      if a = b && !(a = 'l' || a = 's' || a = 'z') then dropRightL w 1 else w
    | _ => w

/-- Step 2: `-eed` / `-ed` / `-ing`. -/
def stemStep2 (w : List Char) : List Char :=
  if endsWith w "eed".data then
    (if 0 < measure (dropRightL w 3) then dropRightL w 1 else w)
  else if endsWith w "ed".data then
    (if hasVowel (dropRightL w 2) then edIngFix (dropRightL w 2) else w)
  else if endsWith w "ing".data then
    (if hasVowel (dropRightL w 3) then edIngFix (dropRightL w 3) else w)
  else w

/-- Step 3: terminal `y` → `i` after a vowel. -/
def stemStep3 (w : List Char) : List Char :=
  if endsWith w "y".data && decide (2 < w.length) && hasVowel (dropRightL w 1) then
    dropRightL w 1 ++ ['i']
  else w

/-- The ordered suffix table of step 4. -/
def step4List : List (List Char × List Char) :=
  [("ational".data, "ate".data), ("tional".data, "tion".data),
   ("enci".data, "ence".data), ("anci".data, "ance".data),
   ("izer".data, "ize".data), ("ator".data, "ate".data),
   ("alli".data, "al".data), ("ousli".data, "ous".data),
   ("entli".data, "ent".data), ("eli".data, "e".data),
   ("fulness".data, "ful".data), ("iveness".data, "ive".data),
   ("ization".data, "ize".data), ("ation".data, "ate".data),
   ("ness".data, [] ), ("ment".data, [] )]

/-- Step 4: first suffix whose stripped stem has positive measure wins. -/
def stemStep4 (w : List Char) : List Char :=
  match step4List.find?
      (fun sr => endsWith w sr.1 && decide (0 < measure (dropRightL w sr.1.length))) with
  | some sr => dropRightL w sr.1.length ++ sr.2
  | none => w

/-- Step 5, first if: drop a final `e` when the rest has measure > 1. -/
def stemStep5a (w : List Char) : List Char :=
  if endsWith w "e".data && decide (1 < measure (dropRightL w 1)) then
    dropRightL w 1
  else w

/-- Step 5, second if: drop one `l` of a final `ll` when measure > 1. -/
def stemStep5b (w : List Char) : List Char :=
  if endsWith w "l".data && endsWith w "ll".data
      && decide (1 < measure (dropRightL w 1)) then
    dropRightL w 1
  else w

/-- Step 5: final `e` / double `l` cleanup (two sequential ifs). -/
def stemStep5 (w : List Char) : List Char := stemStep5b (stemStep5a w)

/-- `stem` from `indexer.py`: words of length < 3 unchanged, otherwise the
five steps in order. -/
def stem (w : List Char) : List Char :=
  if w.length < 3 then w
  else stemStep5 (stemStep4 (stemStep3 (stemStep2 (stemStep1 w))))

/-- `tokenize` from `indexer.py`: lowercase, extract `[a-z0-9]+` runs,
drop stopwords and length-1 tokens, then stem. -/
def tokenize (text : List Char) : List (List Char) :=
  let toks := alnumRuns (text.map pyLowerChar)
  (toks.filter (fun t => !(isStopword t) && decide (1 < t.length))).map stem

/-! ### Data model of the positional inverted index (`indexer.py`) -/

structure Posting where
  term_freq : Nat
  positions : List Nat
deriving DecidableEq

structure TermEntry where
  doc_freq : Nat
  postings : List (String × Posting)
deriving DecidableEq

structure Page where
  id : Nat
  title : String
  url : String
  text : String

structure FullIndex where
  num_docs : Nat
  avg_doc_length : ℝ
  doc_lengths : List (String × Nat)
  index : List (List Char × TermEntry)

/-- The module-level caches of `query_engine.py` (`_index_cache` and
`_pages_by_id`) made explicit, as the spec's §9 `Engine` value. -/
structure Engine where
  idx : FullIndex
  pagesById : List (String × Page)

/-! ### Index builder (`build_index` in `indexer.py`) -/

/-- `term_positions[token].append(pos)` on a `defaultdict(list)`. -/
def appendPos (t : List Char) (p : Nat) :
    List (List Char × List Nat) → List (List Char × List Nat)
  | [] => [(t, [p])]
  | (t', ps) :: rest =>
    if t' = t then (t', ps ++ [p]) :: rest else (t', ps) :: appendPos t p rest

def termPositionsAux :
    List (List Char) → Nat → List (List Char × List Nat) → List (List Char × List Nat)
  | [], _, acc => acc
  | tk :: tks, p, acc => termPositionsAux tks (p + 1) (appendPos tk p acc)

/-- `for pos, token in enumerate(tokens): term_positions[token].append(pos)`. -/
def termPositions (tokens : List (List Char)) : List (List Char × List Nat) :=
  termPositionsAux tokens 0 []

/-- Merging one document's term/position map into the global index:
create the entry if absent, increment `doc_freq`, set the posting for
this document id (plain dict assignment — overwrites silently). -/
def indexDoc (docId : String) (tps : List (List Char × List Nat))
    (idx : List (List Char × TermEntry)) : List (List Char × TermEntry) :=
  tps.foldl (fun acc tp =>
    let e := (alookup tp.1 acc).getD ⟨0, []⟩
    dictInsert tp.1
      ⟨e.doc_freq + 1, dictInsert docId ⟨tp.2.length, tp.2⟩ e.postings⟩ acc) idx

def buildStep (st : List (String × Nat) × List (List Char × TermEntry)) (page : Page) :
    List (String × Nat) × List (List Char × TermEntry) :=
  let docId := pyStr page.id
  let tokens := tokenize page.text.data
  (dictInsert docId tokens.length st.1, indexDoc docId (termPositions tokens) st.2)

def buildState (pages : List Page)
    (st : List (String × Nat) × List (List Char × TermEntry)) :
    List (String × Nat) × List (List Char × TermEntry) :=
  pages.foldl buildStep st

/-! ### BM25 over the reals (`math.log` becomes `Real.log`) -/

noncomputable section

def BM25_K1 : ℝ := 1.5
def BM25_B : ℝ := 0.75

/-- `_bm25_idf`. -/
def bm25_idf (doc_freq num_docs : Nat) : ℝ :=
  Real.log (((num_docs : ℝ) - (doc_freq : ℝ) + 0.5) / ((doc_freq : ℝ) + 0.5) + 1)

/-- `_bm25_tf`. -/
def bm25_tf (term_freq doc_length : Nat) (avg_doc_length : ℝ) : ℝ :=
  ((term_freq : ℝ) * (BM25_K1 + 1)) /
    ((term_freq : ℝ) + BM25_K1 * (1 - BM25_B + BM25_B * (doc_length : ℝ) / avg_doc_length))

/-- Python `round(x, 2)`; half-way cases of float round-half-even are
modelled by the mathematical nearest-integer rounding (no claim depends
on them). -/
def round2 (x : ℝ) : ℝ := ((round (x * 100) : ℤ) : ℝ) / 100

/-- Python `round(x, 4)` used on result scores. -/
def round4 (x : ℝ) : ℝ := ((round (x * 10000) : ℤ) : ℝ) / 10000

/-- `build_index` from `indexer.py`. -/
def build_index (pages : List Page) : FullIndex :=
  let st := buildState pages ([], [])
  { num_docs := pages.length
    avg_doc_length := round2 (if pages.length = 0 then 0
      else ((st.1.map Prod.snd).sum : ℝ) / (pages.length : ℝ))
    doc_lengths := st.1
    index := st.2 }

/-! ### BM25 scorer (`score_simple` in `query_engine.py`) -/

/-- `scores[doc_id] += v` on a `defaultdict(float)`. -/
def addScore (d : String) (v : ℝ) : List (String × ℝ) → List (String × ℝ)
  | [] => [(d, v)]
  | (d', s) :: rest =>
    if d' = d then (d', s + v) :: rest else (d', s) :: addScore d v rest

/-- The `scores` dict of `score_simple`, in insertion order. -/
def scoreDict (e : Engine) (terms : List (List Char)) : List (String × ℝ) :=
  terms.foldl (fun acc t =>
    match alookup t e.idx.index with
    | none => acc
    | some entry =>
      entry.postings.foldl (fun acc2 dp =>
        addScore dp.1 (bm25_idf entry.doc_freq e.idx.num_docs *
          bm25_tf dp.2.term_freq ((alookup dp.1 e.idx.doc_lengths).getD 0)
            e.idx.avg_doc_length) acc2) acc) []

open Classical in
/-- Stable insertion used to embed Python's
`sorted(items, key=lambda x: x[1], reverse=True)`: a stable sort,
descending on the score, ties kept in original (insertion) order. -/
def insertScoreDesc (p : String × ℝ) : List (String × ℝ) → List (String × ℝ)
  | [] => [p]
  | q :: qs => if p.2 < q.2 then q :: insertScoreDesc p qs else p :: q :: qs

def sortScoresDesc : List (String × ℝ) → List (String × ℝ)
  | [] => []
  | p :: ps => insertScoreDesc p (sortScoresDesc ps)

/-- `score_simple` from `query_engine.py`. -/
def score_simple (e : Engine) (terms : List (List Char)) : List (String × ℝ) :=
  sortScoresDesc (scoreDict e terms)

/-! ### Phrase matcher (`score_phrase`) -/

def phraseFound (e : Engine) (docId : String) (start : Nat) :
    Nat → List (List Char) → Bool
  | _, [] => true
  | off, tk :: rest =>
    match alookup tk e.idx.index with
    | none => false
    | some en =>
      match alookup docId en.postings with
      | none => false
      | some p =>
        decide ((start + off) ∈ p.positions) && phraseFound e docId start (off + 1) rest

/-- `score_phrase` from `query_engine.py`. -/
def score_phrase (e : Engine) (pts : List (List Char)) : List (String × ℝ) :=
  match pts with
  | [] => []
  | first :: rest =>
    match alookup first e.idx.index with
    | none => []
    | some entry =>
      sortScoresDesc (entry.postings.foldl (fun acc dp =>
        if dp.2.positions.any (fun st => phraseFound e dp.1 st 1 rest) then
          acc ++ [(dp.1, bm25_idf entry.doc_freq e.idx.num_docs *
            bm25_tf dp.2.term_freq ((alookup dp.1 e.idx.doc_lengths).getD 0)
              e.idx.avg_doc_length)]
        else acc) [])

end

/-! ### Query parser (`parse_query` / `_parse_boolean`) -/

/-- Boolean AST node (`{"term": t}`, `{"op": "NOT"/"AND"/"OR", ...}`). -/
inductive Node where
  | term : List Char → Node
  | notOp : Node → Node
  | andOp : Node → Node → Node
  | orOp : Node → Node → Node
deriving DecidableEq

def isWordOpt : Option Char → Bool
  | none => false
  | some c => isWordChar c

/-- Match a whole-word keyword at the head of `l` (the `\bKW\b` part of
`re.search(r"\b(AND|OR|NOT)\b", raw)`; boundary before is checked by the
caller). -/
def matchKw (kw l : List Char) : Bool :=
  kw.isPrefixOf l && !(isWordOpt l[kw.length]?)

def containsOpAux : Option Char → List Char → Bool
  | _, [] => false
  | prev, c :: cs =>
    (!(isWordOpt prev) &&
      (matchKw "AND".data (c :: cs) || matchKw "OR".data (c :: cs) ||
        matchKw "NOT".data (c :: cs)))
    || containsOpAux (some c) cs

/-- `re.search(r"\b(AND|OR|NOT)\b", raw) is not None`. -/
def containsBoolOp (l : List Char) : Bool := containsOpAux none l

/-- Atom words are tokenized; first token if any, else the lowercased
raw word. -/
def termOfWord (w : List Char) : List Char :=
  match tokenize w with
  | t :: _ => t
  | [] => w.map pyLowerChar

/-! The recursive-descent boolean parser, on whitespace tokens, with a
fuel argument (`3 * length + 3` always suffices, see the success lemma
below).  `none` models the `IndexError` that `consume()` raises when an
atom is expected at end of input. -/

mutual

def parseExpr : Nat → List (List Char) → Option (Node × List (List Char))
  | 0, _ => none
  | f + 1, toks =>
    match parseFactor f toks with
    | none => none
    | some (l, rest) => parseLoop f l rest

def parseLoop : Nat → Node → List (List Char) → Option (Node × List (List Char))
  | 0, _, _ => none
  | f + 1, left, toks =>
    match toks with
    | [] => some (left, [])
    | op :: rest =>
      if op = "AND".data then
        match parseFactor f rest with
        | none => none
        | some (r, rest') => parseLoop f (Node.andOp left r) rest'
      else if op = "OR".data then
        match parseFactor f rest with
        | none => none
        | some (r, rest') => parseLoop f (Node.orOp left r) rest'
      else some (left, toks)

def parseFactor : Nat → List (List Char) → Option (Node × List (List Char))
  | 0, _ => none
  | f + 1, toks =>
    match toks with
    | w :: rest =>
      if w = "NOT".data then
        match parseFactor f rest with
        | none => none
        | some (n, rest') => some (Node.notOp n, rest')
      else parseAtom f toks
    | [] => parseAtom f toks

def parseAtom : Nat → List (List Char) → Option (Node × List (List Char))
  | 0, _ => none
  | f + 1, toks =>
    match toks with
    | [] => none
    | w :: rest =>
      if w = "(".data then
        match parseExpr f rest with
        | none => none
        | some (n, rest') =>
          match rest' with
          | r :: rest'' => if r = ")".data then some (n, rest'') else some (n, rest')
          | [] => some (n, [])
      else some (Node.term (termOfWord w), rest)

end

/-- `_parse_boolean` from `query_engine.py` (trailing unparsed tokens are
discarded, as in the source). -/
def parseBoolean (l : List Char) : Option Node :=
  let toks := pySplit l
  (parseExpr (3 * toks.length + 3) toks).map Prod.fst

/-- The tokens that make the boolean parser demand a further atom: a
token list ending in one of these makes `consume()` raise. -/
def BADLAST : List (List Char) :=
  ["AND".data, "OR".data, "NOT".data, "(".data]

/-- Token lists on which the boolean parser cannot fail: nonempty and not
ending with an operator or an opening parenthesis. -/
def GoodToks (toks : List (List Char)) : Prop :=
  toks ≠ [] ∧ toks.getLast? ∉ BADLAST.map some

inductive QueryQ where
  | simple : List (List Char) → QueryQ
  | phrase : List (List Char) → QueryQ
  | boolean : Node → QueryQ
deriving DecidableEq

/-- `re.match(r'^"(.+)"$', raw)` on the stripped query: a leading and a
trailing quote with a nonempty, newline-free middle; returns the inner
group. -/
def phraseInner (l : List Char) : Option (List Char) :=
  match l with
  | '"' :: rest =>
    if 2 ≤ rest.length ∧ rest.getLast? = some '"' ∧ '\n' ∉ rest.dropLast then
      some rest.dropLast
    else none
  | _ => none

/-- `parse_query` from `query_engine.py`. -/
def parse_query (raw : String) : Option QueryQ :=
  let s := pyStrip raw.data
  if s = [] then some (QueryQ.simple [])
  else
    match phraseInner s with
    | some inner => some (QueryQ.phrase (tokenize inner))
    | none =>
      if containsBoolOp s then (parseBoolean s).map QueryQ.boolean
      else some (QueryQ.simple (tokenize s))

/-! ### Boolean evaluator (`_eval_boolean`, `_collect_leaf_terms`,
`score_boolean`) -/

/-- Python set operations, modelled on lists up to membership (only
membership and emptiness of the result are ever used). -/
def setDiff (a b : List String) : List String := a.filter (¬ · ∈ b)
def setInter (a b : List String) : List String := a.filter (· ∈ b)
def setUnion (a b : List String) : List String := a ++ b.filter (¬ · ∈ a)

/-- `_eval_boolean`: AST node to the set of matching doc ids. -/
def eval_boolean (e : Engine) : Node → List String
  | Node.term t =>
    match alookup t e.idx.index with
    | some en => en.postings.map Prod.fst
    | none => []
  | Node.notOp c => setDiff (e.idx.doc_lengths.map Prod.fst) (eval_boolean e c)
  | Node.andOp l r => setInter (eval_boolean e l) (eval_boolean e r)
  | Node.orOp l r => setUnion (eval_boolean e l) (eval_boolean e r)

/-- `_collect_leaf_terms`: every `term` leaf, including under `NOT`. -/
def collect_leaf_terms : Node → List (List Char)
  | Node.term t => [t]
  | Node.notOp c => collect_leaf_terms c
  | Node.andOp l r => collect_leaf_terms l ++ collect_leaf_terms r
  | Node.orOp l r => collect_leaf_terms l ++ collect_leaf_terms r

/-- `score_boolean` from `query_engine.py`: evaluate the set, score with
`score_simple` on the leaf terms, filter to the set. -/
noncomputable def score_boolean (e : Engine) (ast : Node) : List (String × ℝ) :=
  let m := eval_boolean e ast
  if m = [] then []
  else (score_simple e (collect_leaf_terms ast)).filter (fun ds => ds.1 ∈ m)

/-! ### Snippet generator (`generate_snippet`) -/

/-- Python `hay.find(pat)` (first index of the substring; `pat = ""`
matches at 0). -/
def findSub (hay pat : List Char) : Option Nat :=
  match hay with
  | [] => if pat.isPrefixOf [] then some 0 else none
  | c :: t =>
    if pat.isPrefixOf (c :: t) then some 0 else (findSub t pat).map (· + 1)

/-- Python `l.rfind(" ")`. -/
def rfindSpace (l : List Char) : Option Nat :=
  (findSub l.reverse [' ']).map (fun i => l.length - 1 - i)

/-- Case-insensitive literal match of `pat` against a prefix of the
second argument (`re.IGNORECASE` on ASCII). -/
def matchCI : List Char → List Char → Bool
  | [], _ => true
  | _ :: _, [] => false
  | a :: as, b :: bs => decide (pyLowerChar a = pyLowerChar b) && matchCI as bs

/-- One left-to-right pass of `re.sub(r"\b" + re.escape(term) + r"\b",
lambda m: "**" + m.group() + "**", window, re.IGNORECASE)` for a
nonempty term `t1 :: ts`: at each position, check the word boundary
before, the literal case-insensitive match, and the word boundary
after; on a hit, wrap the matched original characters and continue
after the match. -/
def subBoldGo (t1 : Char) (ts : List Char) : Nat → Option Char → List Char → List Char
  | _, _, [] => []
  | 0, _, l => l
  | f + 1, prev, c :: cs =>
    if ((isWordOpt prev) != isWordChar c) && matchCI (t1 :: ts) (c :: cs)
        && ((isWordOpt (c :: cs)[ts.length]?) != (isWordOpt (c :: cs)[ts.length + 1]?)) then
      '*' :: '*' :: ((c :: cs).take (ts.length + 1) ++ '*' :: '*' ::
        subBoldGo t1 ts f (c :: cs)[ts.length]? (cs.drop ts.length))
    else c :: subBoldGo t1 ts f (some c) cs

def subBold (term w : List Char) : List Char :=
  match term with
  | [] => w
  | t1 :: ts => subBoldGo t1 ts (w.length + 1) none w

/-- Stable descending sort by length:
`sorted(query_terms, key=len, reverse=True)`. -/
def insertLenDesc (p : List Char) : List (List Char) → List (List Char)
  | [] => [p]
  | q :: qs => if p.length < q.length then q :: insertLenDesc p qs else p :: q :: qs

def sortByLenDesc : List (List Char) → List (List Char)
  | [] => []
  | p :: ps => insertLenDesc p (sortByLenDesc ps)

def SNIPPET_LENGTH : Nat := 200

/-- `generate_snippet` from `query_engine.py`.  Note the fallback when no
query term occurs: `best_pos` stays `len(text)` (the source comment
says "fallback: start of doc", but the value is the text length). -/
def generate_snippet (text : List Char) (query_terms : List (List Char))
    (max_len : Nat) : List Char :=
  let lower := text.map pyLowerChar
  let best_pos := query_terms.foldl (fun bp term =>
    match findSub lower (term.map pyLowerChar) with
    | some idx => if idx < bp then idx else bp
    | none => bp) text.length
  let half := max_len / 2
  let start := best_pos - half
  let stop := min text.length (best_pos + half)
  let window := (text.drop start).take (stop - start)
  let window := if 0 < start then
      match findSub window [' '] with
      | some sp => window.drop (sp + 1)
      | none => window
    else window
  let window := if stop < text.length then
      match rfindSpace window with
      | some sp => window.take sp
      | none => window
    else window
  let window := (sortByLenDesc query_terms).foldl (fun w term =>
    if term.length < 2 then w else subBold term w) window
  let window := if 0 < start then "...".data ++ window else window
  if stop < text.length then window ++ "...".data else window

/-! ### Search entry point (`search`) -/

structure Result where
  rank : Nat
  doc_id : String
  title : String
  url : String
  score : ℝ
  snippet : List Char

/-- Python `scored[:top_k]` (slice with a possibly negative bound). -/
def pySliceTo {α : Type} (k : Int) (l : List α) : List α :=
  if k < 0 then l.take (l.length - (-k).toNat) else l.take k.toNat

def TOP_K : Int := 5

noncomputable def mkResult (e : Engine) (ows : List (List Char)) (rank : Nat)
    (docId : String) (s : ℝ) : Result :=
  let page := alookup docId e.pagesById
  { rank := rank
    doc_id := docId
    title := (page.map Page.title).getD "Unknown"
    url := (page.map Page.url).getD ""
    score := round4 s
    snippet := generate_snippet ((page.map Page.text).getD "").data ows SNIPPET_LENGTH }

/-- `enumerate(scored[:top_k], 1)` materialized into result records. -/
noncomputable def buildResults (e : Engine) (ows : List (List Char)) :
    Nat → List (String × ℝ) → List Result
  | _, [] => []
  | r, (d, s) :: rest => mkResult e ows r d s :: buildResults e ows (r + 1) rest

/-- `search` from `query_engine.py`; `none` models an uncaught exception
escaping from `parse_query`. -/
noncomputable def search (e : Engine) (raw : String) (top_k : Int) :
    Option (List Result) :=
  match parse_query raw with
  | none => none
  | some q =>
    let scored := match q with
      | QueryQ.phrase pts => score_phrase e pts
      | QueryQ.boolean ast => score_boolean e ast
      | QueryQ.simple ts => score_simple e ts
    let ows := alnumRuns (raw.data.map pyLowerChar)
    some (buildResults e ows 1 (pySliceTo top_k scored))

/-! ### Concrete corpora used by the claims -/

/-- The `{str(p["id"]): p for p in pages}` snapshot. -/
def pagesById (pages : List Page) : List (String × Page) :=
  pages.foldl (fun acc p => dictInsert (pyStr p.id) p acc) []

noncomputable def engineOf (pages : List Page) : Engine :=
  ⟨build_index pages, pagesById pages⟩

/-- The three-document example corpus of the spec (§8). -/
def pages3 : List Page :=
  [⟨0, "Neural Networks", "", "Neural networks are computational models."⟩,
   ⟨1, "Python Language", "", "Python is a programming language used for machine learning."⟩,
   ⟨2, "Biology Basics", "", "Cells are the basic units of life."⟩]

noncomputable def eng3 : Engine := engineOf pages3

/-- Two identical documents indexed with ids out of ascending order. -/
def pages56 : List Page := [⟨5, "", "", "cat"⟩, ⟨3, "", "", "cat"⟩]

noncomputable def eng56 : Engine := engineOf pages56

/-- Two documents sharing id 0. -/
def pagesDup : List Page := [⟨0, "A", "", "cat"⟩, ⟨0, "B", "", "cat cat"⟩]

/-- 150 characters with no occurrence of the query word. -/
def t150 : List Char := (List.replicate 30 "abcd ".data).flatten

/-- The score both documents of `pages56` receive for the term `cat`. -/
noncomputable def catScore : ℝ :=
  bm25_idf 2 2 * bm25_tf 1 1 (build_index pages56).avg_doc_length

/-! ### Index invariants (for C7) -/

/-- The spec's posting invariants for document `d` against a doc-length
table: `term_freq` counts the positions, positions strictly increase
and stay below the document's token count. -/
def PostOK (dls : List (String × Nat)) (d : String) (p : Posting) : Prop :=
  p.term_freq = p.positions.length ∧
  p.positions.Pairwise (· < ·) ∧
  ∃ L, alookup d dls = some L ∧ ∀ x ∈ p.positions, x < L

/-- The spec's term-entry invariants: `doc_freq` equals the number of
postings, and each posting is well-formed. -/
def EntryOK (dls : List (String × Nat)) (e : TermEntry) : Prop :=
  e.doc_freq = e.postings.length ∧ ∀ d p, (d, p) ∈ e.postings → PostOK dls d p

def IdxOK (dls : List (String × Nat)) (idx : List (List Char × TermEntry)) : Prop :=
  ∀ t e, (t, e) ∈ idx → EntryOK dls e

/-- All position lists in a term-positions map strictly increase and are
bounded by `bound`. -/
def TPOK (bound : Nat) (l : List (List Char × List Nat)) : Prop :=
  ∀ tp ∈ l, (tp : List Char × List Nat).2.Pairwise (· < ·) ∧ ∀ x ∈ tp.2, x < bound

/-! ## Helper lemmas -/

theorem alookup_dictInsert_self {K V : Type} [DecidableEq K] (k : K) (v : V)
    (l : List (K × V)) : alookup k (dictInsert k v l) = some v := by
  induction l with
  | nil => simp [dictInsert, alookup]
  | cons hd tl ih =>
    obtain ⟨k', v'⟩ := hd
    by_cases h : k' = k <;> simp [dictInsert, alookup, h, ih]

theorem alookup_dictInsert_ne {K V : Type} [DecidableEq K] {k k' : K}
    (h : k ≠ k') (v : V) (l : List (K × V)) :
    alookup k (dictInsert k' v l) = alookup k l := by
  have h' : ¬ (k' = k) := fun he => h he.symm
  induction l with
  | nil => simp [dictInsert, alookup, h']
  | cons hd tl ih =>
    obtain ⟨a, b⟩ := hd
    by_cases ha : a = k'
    · subst ha
      simp [dictInsert, alookup, h']
    · by_cases hk : a = k <;> simp [dictInsert, alookup, ha, hk, h, h', ih]

theorem dictInsert_eq_append {K V : Type} [DecidableEq K] {k : K} {l : List (K × V)}
    (h : alookup k l = none) (v : V) : dictInsert k v l = l ++ [(k, v)] := by
  induction l with
  | nil => simp [dictInsert]
  | cons hd tl ih =>
    obtain ⟨a, b⟩ := hd
    by_cases ha : a = k
    · simp [alookup, ha] at h
    · simp [alookup, ha] at h
      simp [dictInsert, ha, ih h]

theorem mem_dictInsert {K V : Type} [DecidableEq K] {a : K} {b : V} {k : K} {v : V}
    {l : List (K × V)} (h : (a, b) ∈ dictInsert k v l) :
    (a = k ∧ b = v) ∨ (a, b) ∈ l := by
  induction l with
  | nil =>
    simp [dictInsert] at h
    exact Or.inl h
  | cons hd tl ih =>
    obtain ⟨k', v'⟩ := hd
    by_cases hk : k' = k
    · simp [dictInsert, hk] at h
      rcases h with ⟨h1, h2⟩ | h
      · exact Or.inl ⟨h1, h2⟩
      · exact Or.inr (List.mem_cons_of_mem _ h)
    · simp [dictInsert, hk] at h
      rcases h with ⟨h1, h2⟩ | h
      · subst h1; subst h2; exact Or.inr (List.mem_cons_self _ _)
      · rcases ih h with h' | h'
        · exact Or.inl h'
        · exact Or.inr (List.mem_cons_of_mem _ h')

theorem alookup_mem {K V : Type} [DecidableEq K] {k : K} {v : V} {l : List (K × V)}
    (h : alookup k l = some v) : (k, v) ∈ l := by
  induction l with
  | nil => simp [alookup] at h
  | cons hd tl ih =>
    obtain ⟨a, b⟩ := hd
    by_cases ha : a = k
    · subst ha
      simp [alookup] at h
      simp [h]
    · simp [alookup, ha] at h
      exact List.mem_cons_of_mem _ (ih h)

theorem alookup_ne_none_of_mem {K V : Type} [DecidableEq K] {k : K} {v : V}
    {l : List (K × V)} (h : (k, v) ∈ l) : alookup k l ≠ none := by
  induction l with
  | nil => simp at h
  | cons hd tl ih =>
    obtain ⟨a, b⟩ := hd
    rcases List.mem_cons.mp h with he | hm
    · obtain ⟨h1, h2⟩ := Prod.mk.injEq .. ▸ he
      simp [alookup, h1.symm]
    · by_cases ha : a = k
      · simp [alookup, ha]
      · simpa [alookup, ha] using ih hm

theorem alookup_append_left {K V : Type} [DecidableEq K] {k : K} {v : V}
    {l1 : List (K × V)} (h : alookup k l1 = some v) (l2 : List (K × V)) :
    alookup k (l1 ++ l2) = some v := by
  induction l1 with
  | nil => simp [alookup] at h
  | cons hd tl ih =>
    obtain ⟨a, b⟩ := hd
    by_cases ha : a = k
    · simp [alookup, ha] at h ⊢
      exact h
    · simp [alookup, ha] at h ⊢
      exact ih h

theorem alookup_append_right {K V : Type} [DecidableEq K] {k : K}
    {l1 : List (K × V)} (h : alookup k l1 = none) (l2 : List (K × V)) :
    alookup k (l1 ++ l2) = alookup k l2 := by
  induction l1 with
  | nil => simp
  | cons hd tl ih =>
    obtain ⟨a, b⟩ := hd
    by_cases ha : a = k
    · simp [alookup, ha] at h
    · simp [alookup, ha] at h ⊢
      exact ih h

/-! ### Non-emptiness of stemmer output (for C10) -/

theorem measure_pos_ne_nil {w : List Char} (h : 0 < measure w) : w ≠ [] := by
  intro he
  subst he
  simp [measure, measureAux] at h

theorem hasVowel_ne_nil {w : List Char} (h : hasVowel w = true) : w ≠ [] := by
  intro he
  subst he
  simp [hasVowel] at h

theorem length_dropRightL (w : List Char) (n : Nat) :
    (dropRightL w n).length = w.length - n := by
  simp [dropRightL]

theorem dropRightL_ne_nil {w : List Char} {n : Nat} (h : n < w.length) :
    dropRightL w n ≠ [] := by
  have hl : 0 < (dropRightL w n).length := by rw [length_dropRightL]; omega
  exact List.length_pos.mp hl

theorem endsWith_length {w s : List Char} (h : endsWith w s = true) :
    s.length ≤ w.length := by
  simp [endsWith] at h
  exact h.1

theorem stemStep1_ne_nil {w : List Char} (h : 3 ≤ w.length) : stemStep1 w ≠ [] := by
  have hw : w ≠ [] := by
    intro he; subst he; simp at h
  unfold stemStep1
  split
  · exact dropRightL_ne_nil (by omega)
  split
  · exact dropRightL_ne_nil (by omega)
  split
  · exact hw
  split
  · exact dropRightL_ne_nil (by omega)
  · exact hw

theorem edIngFix_ne_nil {w : List Char} (h : w ≠ []) : edIngFix w ≠ [] := by
  unfold edIngFix
  split
  · simp
  split
  · next a b rest heq =>
    split
    · have hlen : 1 < w.length := by
        have := congrArg List.length heq
        simp at this
        omega
      exact dropRightL_ne_nil hlen
    · exact h
  · exact h

theorem stemStep2_ne_nil {w : List Char} (h : w ≠ []) : stemStep2 w ≠ [] := by
  unfold stemStep2
  split
  · next h1 =>
    have h3 : ("eed".data).length ≤ w.length := endsWith_length h1
    simp at h3
    split
    · exact dropRightL_ne_nil (by omega)
    · exact h
  split
  · split
    · next hv => exact edIngFix_ne_nil (hasVowel_ne_nil hv)
    · exact h
  split
  · split
    · next hv => exact edIngFix_ne_nil (hasVowel_ne_nil hv)
    · exact h
  · exact h

theorem stemStep3_ne_nil {w : List Char} (h : w ≠ []) : stemStep3 w ≠ [] := by
  unfold stemStep3
  split
  · simp
  · exact h

theorem stemStep4_ne_nil {w : List Char} (h : w ≠ []) : stemStep4 w ≠ [] := by
  unfold stemStep4
  split
  · next sr heq =>
    have hc := List.find?_some heq
    simp [Bool.and_eq_true] at hc
    have hne : dropRightL w sr.1.length ≠ [] := measure_pos_ne_nil hc.2
    simp [hne]
  · exact h

theorem stemStep5a_ne_nil {w : List Char} (h : w ≠ []) : stemStep5a w ≠ [] := by
  unfold stemStep5a
  split
  · next hc =>
    simp [Bool.and_eq_true] at hc
    exact measure_pos_ne_nil (by omega)
  · exact h

theorem stemStep5b_ne_nil {w : List Char} (h : w ≠ []) : stemStep5b w ≠ [] := by
  unfold stemStep5b
  split
  · next hc =>
    simp [Bool.and_eq_true] at hc
    exact measure_pos_ne_nil (by omega)
  · exact h

theorem stem_ne_nil {w : List Char} (h : w ≠ []) : stem w ≠ [] := by
  unfold stem
  split
  · exact h
  · exact stemStep5b_ne_nil (stemStep5a_ne_nil (stemStep4_ne_nil (stemStep3_ne_nil
      (stemStep2_ne_nil (stemStep1_ne_nil (by omega))))))

/-! ## Claims -/

/-- C10: every token returned by `tokenize` is a non-empty string; yet
single-character tokens occur in the output, because the
length-greater-than-1 filter runs before stemming and `stem` can shorten
a word to one character: the word `ies` is emitted as the term `i`. -/
theorem C10_tokens_nonempty :
    (∀ s : List Char, ∀ t ∈ tokenize s, t ≠ []) ∧ tokenize "ies".data = [['i']] := by
  constructor
  · intro s t ht
    simp only [tokenize, List.mem_map, List.mem_filter, Bool.and_eq_true,
      Bool.not_eq_eq_eq_not, Bool.not_true, decide_eq_true_eq] at ht
    obtain ⟨u, ⟨_, _, hlen⟩, hstem⟩ := ht
    have hu : u ≠ [] := by
      intro he; subst he; simp at hlen
    rw [← hstem]
    exact stem_ne_nil hu
  · decide

/-- C10 witness: the concrete claim instance at `s = "ies"`. -/
theorem C10_witness : (['i'] ∈ tokenize "ies".data) ∧ ['i'] ≠ [] :=
  ⟨by decide, C10_tokens_nonempty.1 "ies".data ['i'] (by decide)⟩

set_option maxRecDepth 100000 in
/-- C1 (code bug): on the three-document example corpus the AST of
`NOT python` set-evaluates to the doc-id set {0, 2}, yet
`search("NOT python", 5)` returns no results at all: `score_simple`
assigns scores only to documents containing at least one leaf term
(here only doc 1), so the filter in `score_boolean` drops every
matching document. -/
theorem C1_not_python_empty :
    parse_query "NOT python" =
      some (QueryQ.boolean (Node.notOp (Node.term "python".data))) ∧
    eval_boolean eng3 (Node.notOp (Node.term "python".data)) = ["0", "2"] ∧
    search eng3 "NOT python" 5 = some [] :=
  ⟨rfl, rfl, rfl⟩

set_option maxRecDepth 100000 in
/-- C2 (counterexample): `build_index` applied to two documents that share
id 0 completes without any error, and the `cat` entry holds a single
posting with `term_freq` 2 — the first document's posting (`term_freq`
1, positions `[0]`) was silently overwritten by the second. -/
theorem C2_counterexample :
    (alookup "cat".data (build_index pagesDup).index).map
      (fun e => e.postings.map (fun dp => dp.2.term_freq)) = some [2] :=
  rfl

set_option maxRecDepth 100000 in
/-- C2 (amended): duplicate ids are not detected: the build completes
normally, the later document overwrites the earlier one's doc length and
per-term postings, and `doc_freq` is incremented once per occurrence, so
it can exceed the number of postings (here 2 vs 1). -/
theorem C2_amended_overwrite :
    (build_index pagesDup).doc_lengths = [("0", 2)] ∧
    alookup "cat".data (build_index pagesDup).index =
      some ⟨2, [("0", ⟨2, [0, 1]⟩)]⟩ :=
  ⟨rfl, rfl⟩

/-- C3 (counterexample): a trailing operator or a bare `NOT` makes
`consume()` index past the end of the token list (`IndexError`,
modelled as `none`): query parsing is not total. -/
theorem C3_counterexample :
    parse_query "python AND" = none ∧ parse_query "NOT" = none :=
  ⟨rfl, rfl⟩

set_option maxRecDepth 100000 in
/-- C4 (code bug): when no query word occurs in the text, `best_pos` is
initialized to `len(text)` and never updated (the source comment says
"fallback: start of doc"), so on a 150-character text the snippet is
the ellipsis-prefixed tail window, not the beginning of the text. -/
theorem C4_snippet_tail_window :
    generate_snippet t150 ["zzz".data] SNIPPET_LENGTH =
      "...".data ++ (List.replicate 19 "abcd ".data).flatten ∧
    (generate_snippet t150 ["zzz".data] SNIPPET_LENGTH).take 5 ≠ t150.take 5 := by
  constructor
  · decide
  · decide

/-- C9 (counterexample): highlighting is not idempotent — the `**`
markers do not block `\b`, so a second identical call wraps the
already-bolded match again. -/
theorem C9_counterexample :
    generate_snippet (generate_snippet "cat".data ["cat".data] SNIPPET_LENGTH)
        ["cat".data] SNIPPET_LENGTH ≠
      generate_snippet "cat".data ["cat".data] SNIPPET_LENGTH := by
  decide

/-- C9 (amended): each highlighting pass wraps every word-bounded match
again, so repeated identical application stacks another layer of
markers, and a duplicated query word nests markers within one call:
both produce `****cat****`. -/
theorem C9_amended_rewrap :
    generate_snippet "cat".data ["cat".data, "cat".data] SNIPPET_LENGTH =
      "****cat****".data ∧
    generate_snippet (generate_snippet "cat".data ["cat".data] SNIPPET_LENGTH)
        ["cat".data] SNIPPET_LENGTH = "****cat****".data := by
  constructor
  · decide
  · decide

/-! ### Ordering of `score_simple` output (for C5, C6) -/

theorem mem_insertScoreDesc {x p : String × ℝ} {l : List (String × ℝ)}
    (h : x ∈ insertScoreDesc p l) : x = p ∨ x ∈ l := by
  induction l with
  | nil =>
    simp [insertScoreDesc] at h
    exact Or.inl h
  | cons q qs ih =>
    unfold insertScoreDesc at h
    split at h
    · rcases List.mem_cons.mp h with he | hm
      · exact Or.inr (he ▸ List.mem_cons_self _ _)
      · rcases ih hm with h' | h'
        · exact Or.inl h'
        · exact Or.inr (List.mem_cons_of_mem _ h')
    · rcases List.mem_cons.mp h with he | hm
      · exact Or.inl he
      · exact Or.inr hm

theorem sorted_insertScoreDesc (p : String × ℝ) {l : List (String × ℝ)}
    (h : l.Sorted (fun a b => b.2 ≤ a.2)) :
    (insertScoreDesc p l).Sorted (fun a b => b.2 ≤ a.2) := by
  induction l with
  | nil => simp [insertScoreDesc]
  | cons q qs ih =>
    rw [List.sorted_cons] at h
    obtain ⟨hq, hqs⟩ := h
    unfold insertScoreDesc
    split
    · next hlt =>
      rw [List.sorted_cons]
      refine ⟨?_, ih hqs⟩
      intro b hb
      rcases mem_insertScoreDesc hb with he | hm
      · exact he ▸ le_of_lt hlt
      · exact hq b hm
    · next hnlt =>
      rw [List.sorted_cons]
      refine ⟨?_, List.sorted_cons.mpr ⟨hq, hqs⟩⟩
      intro b hb
      rcases List.mem_cons.mp hb with he | hm
      · exact he ▸ le_of_not_lt hnlt
      · exact le_trans (hq b hm) (le_of_not_lt hnlt)

theorem sorted_sortScoresDesc (l : List (String × ℝ)) :
    (sortScoresDesc l).Sorted (fun a b => b.2 ≤ a.2) := by
  induction l with
  | nil => simp [sortScoresDesc]
  | cons p ps ih => exact sorted_insertScoreDesc p ih

/-- C6 (amended): for every engine and term list, `score_simple` returns
its `(doc_id, score)` pairs sorted by score descending; ties, however,
are kept in the order in which documents were first scored (Python's
sort is stable), not re-ordered by ascending doc id. -/
theorem C6_score_simple_sorted (e : Engine) (terms : List (List Char)) :
    (score_simple e terms).Sorted (fun a b => b.2 ≤ a.2) :=
  sorted_sortScoresDesc (scoreDict e terms)

set_option maxRecDepth 100000 in
/-- The score dict for `cat` over `pages56` (ids 5 then 3, identical
texts): both documents receive the same score expression. -/
theorem scoreDict56 :
    scoreDict eng56 ["cat".data] = [("5", catScore), ("3", catScore)] :=
  rfl

set_option maxRecDepth 100000 in
theorem score56 :
    score_simple eng56 ["cat".data] = [("5", catScore), ("3", catScore)] := by
  show sortScoresDesc (scoreDict eng56 ["cat".data]) = _
  rw [scoreDict56]
  simp [sortScoresDesc, insertScoreDesc]

/-- C6 (counterexample): documents 5 and 3 of `pages56` tie with the
identical BM25 score, yet `score_simple` returns them as 5 before 3,
not in ascending doc-id order — the tie is broken by indexing order. -/
theorem C6_counterexample :
    score_simple eng56 ["cat".data] = [("5", catScore), ("3", catScore)] ∧
    (score_simple eng56 ["cat".data]).map Prod.fst ≠ ["3", "5"] :=
  ⟨score56, by rw [score56]; decide⟩

/-- C5 (amended): `search` with `top_k = 0` returns the empty result list
for every engine and raw query (the slice `scored[:0]` is empty); with a
negative `top_k` Python slicing drops only the last `|top_k|` scored
documents, which need not yield an empty list (see the counterexample). -/
theorem C5_topk_zero_empty (e : Engine) (raw : String) :
    (search e raw 0).getD [] = [] := by
  unfold search
  cases hq : parse_query raw with
  | none => simp
  | some q =>
    have hslice : ∀ l : List (String × ℝ), pySliceTo 0 l = [] := by
      intro l
      simp [pySliceTo]
    cases q <;> simp [hslice, buildResults]

/-- C5 (counterexample): `search("cat", -1)` over `pages56` returns one
result, not the empty list: `scored[:-1]` drops only the last scored
document. -/
theorem C5_counterexample : (search eng56 "cat" (-1)).getD [] ≠ [] := by
  have h : search eng56 "cat" (-1) =
      some (buildResults eng56 [['c', 'a', 't']] 1
        (pySliceTo (-1) (score_simple eng56 ["cat".data]))) := rfl
  rw [h, score56]
  have hs : pySliceTo (-1) [("5", catScore), ("3", catScore)] = [("5", catScore)] := by
    simp [pySliceTo]
  rw [hs]
  simp [buildResults]

/-! ### Stable top-k (for C8) -/

theorem take_isPrefix_take_succ {α : Type} :
    ∀ (l : List α) (n : Nat), l.take n <+: l.take (n + 1)
  | [], _ => by simp
  | _ :: _, 0 => by simp
  | a :: l, n + 1 => by
    simp [List.cons_prefix_cons, take_isPrefix_take_succ l n]

theorem pySliceTo_prefix_succ {α : Type} (l : List α) {k : Int} (hk : 1 ≤ k) :
    pySliceTo k l <+: pySliceTo (k + 1) l := by
  have h0 : ¬ k < 0 := by omega
  have h1 : ¬ k + 1 < 0 := by omega
  have h2 : (k + 1).toNat = k.toNat + 1 := by omega
  simp only [pySliceTo, h0, h1, if_neg, h2]
  exact take_isPrefix_take_succ l k.toNat

theorem buildResults_append (e : Engine) (ows : List (List Char)) :
    ∀ (r : Nat) (l t : List (String × ℝ)),
      buildResults e ows r (l ++ t) =
        buildResults e ows r l ++ buildResults e ows (r + l.length) t
  | r, [], t => by simp [buildResults]
  | r, (d, s) :: rest, t => by
    have ih := buildResults_append e ows (r + 1) rest t
    have harith : r + 1 + rest.length = r + (rest.length + 1) := by omega
    show mkResult e ows r d s :: buildResults e ows (r + 1) (rest ++ t) = _
    rw [ih, harith]
    simp [buildResults]

/-- C8: with the engine fixed, for every raw query and every `k ≥ 1`,
the result list of `search(q, k)` is a prefix of that of
`search(q, k + 1)`: the scored list does not depend on `top_k`, slicing
commutes with taking one more element, and ranks are assigned
positionally. -/
theorem C8_search_topk_monotone (e : Engine) (raw : String) (k : Int) (hk : 1 ≤ k) :
    (search e raw k).getD [] <+: (search e raw (k + 1)).getD [] := by
  unfold search
  cases hq : parse_query raw with
  | none => simp
  | some q =>
    have main : ∀ scored : List (String × ℝ),
        buildResults e (alnumRuns (raw.data.map pyLowerChar)) 1 (pySliceTo k scored) <+:
          buildResults e (alnumRuns (raw.data.map pyLowerChar)) 1
            (pySliceTo (k + 1) scored) := by
      intro scored
      obtain ⟨t, ht⟩ := pySliceTo_prefix_succ scored hk
      rw [← ht, buildResults_append]
      exact List.prefix_append _ _
    cases q <;> simpa using main _

/-- C8 witness: the concrete instance at the example corpus, query
`cells`, `k = 1`. -/
theorem C8_witness :
    (1 : Int) ≤ 1 ∧
      (search eng3 "cells" 1).getD [] <+: (search eng3 "cells" (1 + 1)).getD [] :=
  ⟨by decide, C8_search_topk_monotone eng3 "cells" 1 (by decide)⟩

/-! ### Totality of the boolean parser away from trailing operators
(for C3) -/

theorem parse_suffix : ∀ f : Nat,
    (∀ toks n r, parseExpr f toks = some (n, r) → r <:+ toks) ∧
    (∀ left toks n r, parseLoop f left toks = some (n, r) → r <:+ toks) ∧
    (∀ toks n r, parseFactor f toks = some (n, r) → r <:+ toks) ∧
    (∀ toks n r, parseAtom f toks = some (n, r) → r <:+ toks) := by
  intro f
  induction f with
  | zero =>
    refine ⟨?_, ?_, ?_, ?_⟩ <;> intro _ <;>
      simp [parseExpr, parseLoop, parseFactor, parseAtom]
  | succ f ih =>
    obtain ⟨ihE, ihL, ihF, ihA⟩ := ih
    refine ⟨?_, ?_, ?_, ?_⟩
    · intro toks n r h
      simp only [parseExpr] at h
      cases hfac : parseFactor f toks with
      | none => simp [hfac] at h
      | some p =>
        obtain ⟨l, rest⟩ := p
        rw [hfac] at h
        exact (ihL l rest n r h).trans (ihF toks l rest hfac)
    · intro left toks n r h
      cases toks with
      | nil =>
        simp only [parseLoop, Option.some.injEq, Prod.mk.injEq] at h
        rw [← h.2]
      | cons op rest =>
        simp only [parseLoop] at h
        by_cases hA : op = "AND".data
        · rw [if_pos hA] at h
          cases hfac : parseFactor f rest with
          | none => simp [hfac] at h
          | some p =>
            obtain ⟨rr, rest'⟩ := p
            rw [hfac] at h
            exact ((ihL _ rest' n r h).trans (ihF rest rr rest' hfac)).trans
              (List.suffix_cons op rest)
        · rw [if_neg hA] at h
          by_cases hO : op = "OR".data
          · rw [if_pos hO] at h
            cases hfac : parseFactor f rest with
            | none => simp [hfac] at h
            | some p =>
              obtain ⟨rr, rest'⟩ := p
              rw [hfac] at h
              exact ((ihL _ rest' n r h).trans (ihF rest rr rest' hfac)).trans
                (List.suffix_cons op rest)
          · rw [if_neg hO] at h
            simp only [Option.some.injEq, Prod.mk.injEq] at h
            rw [← h.2]
    · intro toks n r h
      cases toks with
      | nil =>
        simp only [parseFactor] at h
        exact ihA [] n r h
      | cons w rest =>
        simp only [parseFactor] at h
        by_cases hN : w = "NOT".data
        · rw [if_pos hN] at h
          cases hfac : parseFactor f rest with
          | none => simp [hfac] at h
          | some p =>
            obtain ⟨nn, rest'⟩ := p
            rw [hfac] at h
            simp only [Option.some.injEq, Prod.mk.injEq] at h
            rw [← h.2]
            exact (ihF rest nn rest' hfac).trans (List.suffix_cons w rest)
        · rw [if_neg hN] at h
          exact ihA (w :: rest) n r h
    · intro toks n r h
      cases toks with
      | nil =>
        simp [parseAtom] at h
      | cons w rest =>
        simp only [parseAtom] at h
        by_cases hP : w = "(".data
        · rw [if_pos hP] at h
          cases hexp : parseExpr f rest with
          | none => simp [hexp] at h
          | some p =>
            obtain ⟨nn, rest'⟩ := p
            rw [hexp] at h
            have hrest' : rest' <:+ rest := ihE rest nn rest' hexp
            cases rest' with
            | nil =>
              have h' : some (nn, ([] : List (List Char))) = some (n, r) := h
              simp only [Option.some.injEq, Prod.mk.injEq] at h'
              rw [← h'.2]
              exact List.nil_suffix
            | cons r' rest'' =>
              have h' : (if r' = ")".data then some (nn, rest'')
                  else some (nn, r' :: rest'')) = some (n, r) := h
              by_cases hR : r' = ")".data
              · rw [if_pos hR] at h'
                simp only [Option.some.injEq, Prod.mk.injEq] at h'
                rw [← h'.2]
                exact ((List.suffix_cons r' rest'').trans hrest').trans
                  (List.suffix_cons w rest)
              · rw [if_neg hR] at h'
                simp only [Option.some.injEq, Prod.mk.injEq] at h'
                rw [← h'.2]
                exact hrest'.trans (List.suffix_cons w rest)
        · rw [if_neg hP] at h
          simp only [Option.some.injEq, Prod.mk.injEq] at h
          rw [← h.2]
          exact List.suffix_cons w rest

theorem getLast?_of_suffix {α : Type} {r l : List α} (h : r <:+ l) (hne : r ≠ []) :
    r.getLast? = l.getLast? := by
  obtain ⟨p, hp⟩ := h
  rw [← hp]
  exact (List.getLast?_append_of_ne_nil p hne).symm

theorem goodToks_of_suffix {r toks : List (List Char)} (hg : GoodToks toks)
    (h : r <:+ toks) : r = [] ∨ GoodToks r := by
  by_cases hr : r = []
  · exact Or.inl hr
  · right
    exact ⟨hr, by rw [getLast?_of_suffix h hr]; exact hg.2⟩

theorem goodToks_tail {w : List Char} {rest : List (List Char)}
    (hg : GoodToks (w :: rest)) (hne : rest ≠ []) : GoodToks rest := by
  rcases goodToks_of_suffix hg (List.suffix_cons w rest) with h | h
  · exact absurd h hne
  · exact h

theorem tail_ne_nil_of_bad {w : List Char} {rest : List (List Char)}
    (hg : GoodToks (w :: rest)) (hw : w ∈ BADLAST) : rest ≠ [] := by
  intro he
  subst he
  apply hg.2
  rw [show ([w] : List (List Char)).getLast? = some w from rfl]
  exact List.mem_map_of_mem some hw

theorem parse_success : ∀ f : Nat,
    (∀ toks, GoodToks toks → 3 * toks.length + 3 ≤ f →
      (parseExpr f toks).isSome = true) ∧
    (∀ left toks, (toks = [] ∨ GoodToks toks) → 3 * toks.length + 2 ≤ f →
      (parseLoop f left toks).isSome = true) ∧
    (∀ toks, GoodToks toks → 3 * toks.length + 2 ≤ f →
      (parseFactor f toks).isSome = true) ∧
    (∀ toks, GoodToks toks → 3 * toks.length + 1 ≤ f →
      (parseAtom f toks).isSome = true) := by
  intro f
  induction f with
  | zero => refine ⟨?_, ?_, ?_, ?_⟩ <;> intros <;> omega
  | succ f ih =>
    obtain ⟨ihE, ihL, ihF, ihA⟩ := ih
    have suf := parse_suffix f
    refine ⟨?_, ?_, ?_, ?_⟩
    · intro toks hg hb
      have hf : (parseFactor f toks).isSome = true := ihF toks hg (by omega)
      rw [Option.isSome_iff_exists] at hf
      obtain ⟨⟨l, rest⟩, hfac⟩ := hf
      have hrest : rest <:+ toks := suf.2.2.1 toks l rest hfac
      have hlen : rest.length ≤ toks.length := hrest.length_le
      have hloop : (parseLoop f l rest).isSome = true :=
        ihL l rest (goodToks_of_suffix hg hrest) (by omega)
      simp only [parseExpr, hfac]
      exact hloop
    · intro left toks hgd hb
      cases toks with
      | nil => simp [parseLoop]
      | cons op rest =>
        have hg : GoodToks (op :: rest) := by
          rcases hgd with h | h
          · exact absurd h (by simp)
          · exact h
        simp only [List.length_cons] at hb
        simp only [parseLoop]
        by_cases hA : op = "AND".data
        · rw [if_pos hA]
          have hrne : rest ≠ [] := tail_ne_nil_of_bad hg (by rw [hA]; simp [BADLAST])
          have hgr : GoodToks rest := goodToks_tail hg hrne
          have hfac : (parseFactor f rest).isSome = true := ihF rest hgr (by omega)
          rw [Option.isSome_iff_exists] at hfac
          obtain ⟨⟨rr, rest'⟩, hfac⟩ := hfac
          rw [hfac]
          have hrest' : rest' <:+ rest := suf.2.2.1 rest rr rest' hfac
          have hlen' : rest'.length ≤ rest.length := hrest'.length_le
          exact ihL _ rest' (goodToks_of_suffix hgr hrest') (by omega)
        · rw [if_neg hA]
          by_cases hO : op = "OR".data
          · rw [if_pos hO]
            have hrne : rest ≠ [] := tail_ne_nil_of_bad hg (by rw [hO]; simp [BADLAST])
            have hgr : GoodToks rest := goodToks_tail hg hrne
            have hfac : (parseFactor f rest).isSome = true := ihF rest hgr (by omega)
            rw [Option.isSome_iff_exists] at hfac
            obtain ⟨⟨rr, rest'⟩, hfac⟩ := hfac
            rw [hfac]
            have hrest' : rest' <:+ rest := suf.2.2.1 rest rr rest' hfac
            have hlen' : rest'.length ≤ rest.length := hrest'.length_le
            exact ihL _ rest' (goodToks_of_suffix hgr hrest') (by omega)
          · rw [if_neg hO]
            simp
    · intro toks hg hb
      cases toks with
      | nil => exact absurd rfl hg.1
      | cons w rest =>
        simp only [List.length_cons] at hb
        simp only [parseFactor]
        by_cases hN : w = "NOT".data
        · rw [if_pos hN]
          have hrne : rest ≠ [] := tail_ne_nil_of_bad hg (by rw [hN]; simp [BADLAST])
          have hgr : GoodToks rest := goodToks_tail hg hrne
          have hfac : (parseFactor f rest).isSome = true := ihF rest hgr (by omega)
          rw [Option.isSome_iff_exists] at hfac
          obtain ⟨⟨nn, rest'⟩, hfac⟩ := hfac
          rw [hfac]
          simp
        · rw [if_neg hN]
          exact ihA (w :: rest) hg (by simp only [List.length_cons]; omega)
    · intro toks hg hb
      cases toks with
      | nil => exact absurd rfl hg.1
      | cons w rest =>
        simp only [List.length_cons] at hb
        simp only [parseAtom]
        by_cases hP : w = "(".data
        · rw [if_pos hP]
          have hrne : rest ≠ [] := tail_ne_nil_of_bad hg (by rw [hP]; simp [BADLAST])
          have hgr : GoodToks rest := goodToks_tail hg hrne
          have hexp : (parseExpr f rest).isSome = true := ihE rest hgr (by omega)
          rw [Option.isSome_iff_exists] at hexp
          obtain ⟨⟨nn, rest'⟩, hexp⟩ := hexp
          rw [hexp]
          cases rest' with
          | nil => simp
          | cons r' rest'' =>
            by_cases hR : r' = ")".data
            · simp [hR]
            · simp [hR]
        · rw [if_neg hP]
          simp

theorem runsAux_ne_nil_of_exists {p : Char → Bool} :
    ∀ (l acc : List Char), (acc ≠ [] ∨ ∃ c ∈ l, p c = true) → runsAux p l acc ≠ []
  | [], acc, h => by
    have hacc : acc ≠ [] := by
      rcases h with h | ⟨c, hc, _⟩
      · exact h
      · simp at hc
    simp [runsAux, hacc]
  | c :: cs, acc, h => by
    by_cases hp : p c = true
    · have := @runsAux_ne_nil_of_exists p cs (c :: acc) (Or.inl (by simp))
      simpa [runsAux, hp] using this
    · by_cases hacc : acc = []
      · have hex : ∃ x ∈ cs, p x = true := by
          rcases h with h | ⟨x, hx, hpx⟩
          · exact absurd hacc h
          · rcases List.mem_cons.mp hx with he | hx'
            · exact absurd (he ▸ hpx) hp
            · exact ⟨x, hx', hpx⟩
        have := @runsAux_ne_nil_of_exists p cs [] (Or.inr hex)
        simpa [runsAux, hp, hacc] using this
      · simp [runsAux, hp, hacc]

theorem head_eq_of_matchKw {k0 c : Char} {kw cs : List Char}
    (h : matchKw (k0 :: kw) (c :: cs) = true) : c = k0 := by
  simp only [matchKw, List.isPrefixOf, Bool.and_eq_true, beq_iff_eq] at h
  exact h.1.1.symm

theorem containsOpAux_nonspace :
    ∀ (prev : Option Char) (l : List Char),
      containsOpAux prev l = true → ∃ c ∈ l, isPySpace c = false
  | prev, [], h => by simp [containsOpAux] at h
  | prev, c :: cs, h => by
    unfold containsOpAux at h
    rw [Bool.or_eq_true] at h
    rcases h with h | h
    · refine ⟨c, List.mem_cons_self c cs, ?_⟩
      rw [Bool.and_eq_true, Bool.or_eq_true, Bool.or_eq_true] at h
      rcases h.2 with (hm | hm) | hm
      · rw [head_eq_of_matchKw hm]; decide
      · rw [head_eq_of_matchKw hm]; decide
      · rw [head_eq_of_matchKw hm]; decide
    · obtain ⟨x, hx, hpx⟩ := containsOpAux_nonspace (some c) cs h
      exact ⟨x, List.mem_cons_of_mem c hx, hpx⟩

theorem pySplit_ne_nil {l : List Char} (h : ∃ c ∈ l, isPySpace c = false) :
    pySplit l ≠ [] := by
  apply runsAux_ne_nil_of_exists
  right
  obtain ⟨c, hc, hsp⟩ := h
  exact ⟨c, hc, by simp [hsp]⟩

/-- C3 (amended): `parse_query` returns a `Query` without raising for
every raw string whose whitespace token list does not end in `AND`,
`OR`, `NOT` or `(`; on queries that do end with one of those (a
trailing operator such as `python AND`, a bare `NOT`, or a final `(`)
the boolean parser's `consume()` raises `IndexError`, so parsing is
not total.  Unmatched `)` is tolerated and unmatched `(` with content
consumes to end of input, as the spec describes. -/
theorem C3_total_unless_trailing (raw : String)
    (h : (pySplit (pyStrip raw.data)).getLast? ∉ BADLAST.map some) :
    (parse_query raw).isSome = true := by
  simp only [parse_query]
  by_cases hs : pyStrip raw.data = []
  · simp [hs]
  · rw [if_neg hs]
    cases hph : phraseInner (pyStrip raw.data) with
    | some inner => simp
    | none =>
      show (if containsBoolOp (pyStrip raw.data) = true then
          Option.map QueryQ.boolean (parseBoolean (pyStrip raw.data))
        else some (QueryQ.simple (tokenize (pyStrip raw.data)))).isSome = true
      by_cases hop : containsBoolOp (pyStrip raw.data) = true
      · rw [if_pos hop]
        have hex : ∃ c ∈ pyStrip raw.data, isPySpace c = false :=
          containsOpAux_nonspace none _ hop
        have hgood : GoodToks (pySplit (pyStrip raw.data)) := ⟨pySplit_ne_nil hex, h⟩
        have hsucc :=
          (parse_success (3 * (pySplit (pyStrip raw.data)).length + 3)).1 _ hgood le_rfl
        rw [Option.isSome_iff_exists] at hsucc
        obtain ⟨⟨n, r⟩, hn⟩ := hsucc
        simp [parseBoolean, hn]
      · rw [if_neg hop]
        simp

/-- C3 witness: a well-formed boolean query parses successfully. -/
theorem C3_witness :
    ((pySplit (pyStrip "python OR cats".data)).getLast? ∉ BADLAST.map some) ∧
      (parse_query "python OR cats").isSome = true :=
  ⟨by decide, C3_total_unless_trailing "python OR cats" (by decide)⟩

/-! ### Structure of `build_index` (for C7) -/

theorem TPOK_mono {p q : Nat} {l : List (List Char × List Nat)} (h : TPOK p l)
    (hpq : p ≤ q) : TPOK q l := by
  intro tp htp
  obtain ⟨h1, h2⟩ := h tp htp
  exact ⟨h1, fun x hx => lt_of_lt_of_le (h2 x hx) hpq⟩

theorem TPOK_appendPos {p : Nat} {l : List (List Char × List Nat)} (h : TPOK p l)
    (t : List Char) : TPOK (p + 1) (appendPos t p l) := by
  induction l with
  | nil =>
    intro tp htp
    simp [appendPos] at htp
    subst htp
    constructor
    · simp
    · simp
  | cons hd tl ih =>
    obtain ⟨t', ps⟩ := hd
    have hhd := h (t', ps) (List.mem_cons_self _ _)
    have htl : TPOK p tl := fun tp htp => h tp (List.mem_cons_of_mem _ htp)
    intro tp htp
    by_cases ht : t' = t
    · rw [appendPos, if_pos ht] at htp
      rcases List.mem_cons.mp htp with he | hm
      · subst he
        constructor
        · rw [List.pairwise_append]
          exact ⟨hhd.1, List.pairwise_singleton _ _,
            fun a ha b hb => by rw [List.mem_singleton] at hb; rw [hb]; exact hhd.2 a ha⟩
        · intro x hx
          rcases List.mem_append.mp hx with hx' | hx'
          · exact lt_trans (hhd.2 x hx') (Nat.lt_succ_self p)
          · rw [List.mem_singleton] at hx'
            rw [hx']
            exact Nat.lt_succ_self p
      · exact TPOK_mono htl (Nat.le_succ p) tp hm
    · rw [appendPos, if_neg ht] at htp
      rcases List.mem_cons.mp htp with he | hm
      · subst he
        exact ⟨hhd.1, fun x hx => lt_trans (hhd.2 x hx) (Nat.lt_succ_self p)⟩
      · exact ih htl tp hm

theorem TPOK_termPositionsAux :
    ∀ (tks : List (List Char)) (p : Nat) (acc : List (List Char × List Nat)),
      TPOK p acc → TPOK (p + tks.length) (termPositionsAux tks p acc)
  | [], p, acc, h => by simpa [termPositionsAux] using h
  | tk :: tks, p, acc, h => by
    have := TPOK_termPositionsAux tks (p + 1) (appendPos tk p acc) (TPOK_appendPos h tk)
    have harith : p + 1 + tks.length = p + (tks.length + 1) := by omega
    rw [harith] at this
    simpa [termPositionsAux] using this

theorem TPOK_termPositions (tokens : List (List Char)) :
    TPOK tokens.length (termPositions tokens) := by
  have := TPOK_termPositionsAux tokens 0 [] (by intro tp htp; simp at htp)
  simpa [termPositions] using this

theorem appendPos_keys (t : List Char) (p : Nat) :
    ∀ l : List (List Char × List Nat),
      (appendPos t p l).map Prod.fst =
        if t ∈ l.map Prod.fst then l.map Prod.fst else l.map Prod.fst ++ [t]
  | [] => by simp [appendPos]
  | (t', ps) :: tl => by
    by_cases ht : t' = t
    · subst ht
      simp [appendPos]
    · have ih := appendPos_keys t p tl
      have ht' : ¬ (t = t') := fun he => ht he.symm
      by_cases hmem : t ∈ tl.map Prod.fst
      · simp [appendPos, ht, ht', ih, hmem]
      · simp [appendPos, ht, ht', ih, hmem]

theorem nodup_appendPos {t : List Char} {p : Nat} {l : List (List Char × List Nat)}
    (h : (l.map Prod.fst).Nodup) : ((appendPos t p l).map Prod.fst).Nodup := by
  rw [appendPos_keys]
  by_cases hmem : t ∈ l.map Prod.fst
  · simpa [hmem] using h
  · rw [if_neg hmem]
    exact List.Nodup.append h (List.nodup_singleton t)
      (by simpa [List.disjoint_singleton] using hmem)

theorem nodup_termPositionsAux :
    ∀ (tks : List (List Char)) (p : Nat) (acc : List (List Char × List Nat)),
      ((acc.map Prod.fst).Nodup) → ((termPositionsAux tks p acc).map Prod.fst).Nodup
  | [], p, acc, h => by simpa [termPositionsAux] using h
  | tk :: tks, p, acc, h => by
    have := nodup_termPositionsAux tks (p + 1) (appendPos tk p acc) (nodup_appendPos h)
    simpa [termPositionsAux] using this

theorem nodup_termPositions (tokens : List (List Char)) :
    ((termPositions tokens).map Prod.fst).Nodup := by
  have := nodup_termPositionsAux tokens 0 [] (by simp)
  simpa [termPositions] using this

theorem entry_update_ok {dls : List (String × Nat)} {docId : String} {L : Nat}
    (hdl : alookup docId dls = some L) {E : TermEntry} (hEok : EntryOK dls E)
    (hEfree : alookup docId E.postings = none) {ps : List Nat}
    (hps : ps.Pairwise (· < ·)) (hbound : ∀ x ∈ ps, x < L) :
    EntryOK dls ⟨E.doc_freq + 1, dictInsert docId ⟨ps.length, ps⟩ E.postings⟩ := by
  have hpostings : dictInsert docId (⟨ps.length, ps⟩ : Posting) E.postings =
      E.postings ++ [(docId, ⟨ps.length, ps⟩)] := dictInsert_eq_append hEfree _
  constructor
  · show E.doc_freq + 1 = (dictInsert docId (⟨ps.length, ps⟩ : Posting) E.postings).length
    rw [hpostings, List.length_append, hEok.1]
    rfl
  · intro d p hdp
    show PostOK dls d p
    rw [show (⟨E.doc_freq + 1, dictInsert docId ⟨ps.length, ps⟩ E.postings⟩ :
        TermEntry).postings = dictInsert docId ⟨ps.length, ps⟩ E.postings from rfl,
      hpostings] at hdp
    rcases List.mem_append.mp hdp with hm | hm
    · exact hEok.2 d p hm
    · rw [List.mem_singleton, Prod.ext_iff] at hm
      obtain ⟨hd, hp⟩ := hm
      simp only at hd hp
      subst hd
      subst hp
      exact ⟨rfl, hps, ⟨L, hdl, hbound⟩⟩

theorem indexDoc_ok {dls : List (String × Nat)} {docId : String} {L : Nat}
    (hdl : alookup docId dls = some L) :
    ∀ (tps : List (List Char × List Nat)) (idx : List (List Char × TermEntry)),
      (tps.map Prod.fst).Nodup →
      (∀ tp ∈ tps, (tp : List Char × List Nat).2.Pairwise (· < ·) ∧ ∀ x ∈ tp.2, x < L) →
      IdxOK dls idx →
      (∀ t e, t ∈ tps.map Prod.fst → alookup t idx = some e →
        alookup docId e.postings = none) →
      IdxOK dls (indexDoc docId tps idx)
  | [], idx, _, _, hidx, _ => hidx
  | (t, ps) :: rest, idx, hnodup, htps, hidx, hfresh => by
    rw [List.map_cons, List.nodup_cons] at hnodup
    obtain ⟨htnotin, hnodup'⟩ := hnodup
    have hE : EntryOK dls ((alookup t idx).getD ⟨0, []⟩) ∧
        alookup docId ((alookup t idx).getD ⟨0, []⟩).postings = none := by
      cases he : alookup t idx with
      | none =>
        refine ⟨⟨rfl, ?_⟩, rfl⟩
        intro d p hdp
        simp at hdp
      | some e =>
        exact ⟨hidx t e (alookup_mem he),
          hfresh t e (by rw [List.map_cons]; exact List.mem_cons_self _ _) he⟩
    have hhead := htps (t, ps) (List.mem_cons_self _ _)
    have hnew : EntryOK dls
        ⟨((alookup t idx).getD ⟨0, []⟩).doc_freq + 1,
          dictInsert docId ⟨ps.length, ps⟩ ((alookup t idx).getD ⟨0, []⟩).postings⟩ :=
      entry_update_ok hdl hE.1 hE.2 hhead.1 hhead.2
    have hidx' : IdxOK dls (dictInsert t
        ⟨((alookup t idx).getD ⟨0, []⟩).doc_freq + 1,
          dictInsert docId ⟨ps.length, ps⟩ ((alookup t idx).getD ⟨0, []⟩).postings⟩ idx) := by
      intro t' e' hte'
      rcases mem_dictInsert hte' with ⟨h1, h2⟩ | hm
      · rw [h2]
        exact hnew
      · exact hidx t' e' hm
    have hfresh' : ∀ t' e', t' ∈ rest.map Prod.fst →
        alookup t' (dictInsert t
          ⟨((alookup t idx).getD ⟨0, []⟩).doc_freq + 1,
            dictInsert docId ⟨ps.length, ps⟩
              ((alookup t idx).getD ⟨0, []⟩).postings⟩ idx) = some e' →
        alookup docId e'.postings = none := by
      intro t' e' hmem hlook
      have hne : t' ≠ t := fun he => htnotin (he ▸ hmem)
      rw [alookup_dictInsert_ne hne] at hlook
      exact hfresh t' e' (by rw [List.map_cons]; exact List.mem_cons_of_mem _ hmem) hlook
    exact indexDoc_ok hdl rest _ hnodup'
      (fun tp htp => htps tp (List.mem_cons_of_mem _ htp)) hidx' hfresh'

theorem IdxOK_extend {dls : List (String × Nat)} {idx : List (List Char × TermEntry)}
    {docId : String} {n : Nat} (hnone : alookup docId dls = none) (h : IdxOK dls idx) :
    IdxOK (dictInsert docId n dls) idx := by
  intro t e hte
  obtain ⟨h1, h2⟩ := h t e hte
  refine ⟨h1, ?_⟩
  intro d p hdp
  obtain ⟨ht1, ht2, L, hL, hb⟩ := h2 d p hdp
  have hne : d ≠ docId := by
    intro he
    rw [he, hnone] at hL
    exact Option.noConfusion hL
  exact ⟨ht1, ht2, L, by rw [alookup_dictInsert_ne hne]; exact hL, hb⟩

theorem postings_fresh {dls : List (String × Nat)} {idx : List (List Char × TermEntry)}
    {docId : String} (hnone : alookup docId dls = none) (h : IdxOK dls idx) :
    ∀ t e, alookup t idx = some e → alookup docId e.postings = none := by
  intro t e hte
  cases hp : alookup docId e.postings with
  | none => rfl
  | some p =>
    obtain ⟨_, h2⟩ := h t e (alookup_mem hte)
    obtain ⟨_, _, L, hL, _⟩ := h2 docId p (alookup_mem hp)
    rw [hnone] at hL
    exact Option.noConfusion hL

theorem buildState_ok :
    ∀ (pages : List Page) (dls : List (String × Nat)) (idx : List (List Char × TermEntry)),
      IdxOK dls idx →
      (∀ pg ∈ pages, alookup (pyStr pg.id) dls = none) →
      ((pages.map (fun p => pyStr p.id)).Nodup) →
      IdxOK (buildState pages (dls, idx)).1 (buildState pages (dls, idx)).2
  | [], dls, idx, hidx, _, _ => hidx
  | page :: rest, dls, idx, hidx, hfresh, hnodup => by
    rw [List.map_cons, List.nodup_cons] at hnodup
    obtain ⟨hnotin, hnodup'⟩ := hnodup
    have hfreshhead : alookup (pyStr page.id) dls = none :=
      hfresh page (List.mem_cons_self _ _)
    have hdl' : alookup (pyStr page.id)
        (dictInsert (pyStr page.id) (tokenize page.text.data).length dls) =
        some (tokenize page.text.data).length := alookup_dictInsert_self _ _ _
    have hidx1 : IdxOK (dictInsert (pyStr page.id) (tokenize page.text.data).length dls)
        idx := IdxOK_extend hfreshhead hidx
    have hpf := postings_fresh hfreshhead hidx
    have hidx2 : IdxOK (dictInsert (pyStr page.id) (tokenize page.text.data).length dls)
        (indexDoc (pyStr page.id) (termPositions (tokenize page.text.data)) idx) :=
      indexDoc_ok hdl' _ idx (nodup_termPositions _)
        (TPOK_termPositions (tokenize page.text.data)) hidx1
        (fun t e _ h => hpf t e h)
    have hfresh' : ∀ pg ∈ rest, alookup (pyStr pg.id)
        (dictInsert (pyStr page.id) (tokenize page.text.data).length dls) = none := by
      intro pg hpg
      have hne : pyStr pg.id ≠ pyStr page.id := by
        intro he
        exact hnotin (he ▸ List.mem_map_of_mem (fun p => pyStr p.id) hpg)
      rw [alookup_dictInsert_ne hne]
      exact hfresh pg (List.mem_cons_of_mem _ hpg)
    exact buildState_ok rest _ _ hidx2 hfresh' hnodup'

/-- C7: after `build_index` on a document list with pairwise-distinct
(stringified) ids, for every term entry in the index: its `doc_freq`
equals the number of postings, and every posting's `term_freq` equals
the length of its positions list, with the positions strictly
increasing and all smaller than the document's recorded length. -/
theorem C7_build_index_invariants (pages : List Page)
    (h : (pages.map (fun p => pyStr p.id)).Nodup) :
    ∀ t e, (t, e) ∈ (build_index pages).index →
      e.doc_freq = e.postings.length ∧
      ∀ d p, (d, p) ∈ e.postings →
        p.term_freq = p.positions.length ∧
        p.positions.Pairwise (· < ·) ∧
        ∃ L, alookup d (build_index pages).doc_lengths = some L ∧
          ∀ x ∈ p.positions, x < L := by
  have hok : IdxOK (buildState pages ([], [])).1 (buildState pages ([], [])).2 :=
    buildState_ok pages [] []
      (by intro t e he; simp at he)
      (by intro pg _; rfl)
      h
  intro t e hte
  obtain ⟨h1, h2⟩ := hok t e hte
  exact ⟨h1, h2⟩

/-- C7 witness: the invariants hold for the concrete three-document
example corpus. -/
theorem C7_witness :
    ((pages3.map (fun p => pyStr p.id)).Nodup) ∧
      (∀ t e, (t, e) ∈ (build_index pages3).index →
        e.doc_freq = e.postings.length ∧
        ∀ d p, (d, p) ∈ e.postings →
          p.term_freq = p.positions.length ∧
          p.positions.Pairwise (· < ·) ∧
          ∃ L, alookup d (build_index pages3).doc_lengths = some L ∧
            ∀ x ∈ p.positions, x < L) :=
  ⟨by decide, C7_build_index_invariants pages3 (by decide)⟩

end SearchEngine
